import Mathlib

/-!
Verification of the Netflix ETL cleaning pipeline
(`Cleaning and preprocessing/netflix_movies.py`).

The pipeline transforms an in-memory table (a pandas `DataFrame`) through a
fixed sequence of cleaning stages.  We embed the table as a list of records,
each record an association list from column name to a cell value, and each
stage as a function from tables to tables.  Cell values are text, integers,
or the missing marker (pandas `NaN`/`NA`).  The numeric-coercion stage works
internally with exact decimals standing for the numeric values pandas
produces; since pandas really computes in float64 and casts through int64,
the theorems about that stage quantify only over cells where the exact model
provably coincides with that arithmetic (see `FaithfulYearCell`).  The
deduplication stage can fail (pandas `drop_duplicates` with an
empty `subset` list raises on a nonempty frame), so it and the whole pipeline
return an `Option`.
-/

/-- A cell value: text, integer, or the missing marker (pandas `NaN`/`NA`). -/
inductive Val where
  | str : String → Val
  | int : Int → Val
  | na  : Val
deriving DecidableEq, Repr

/-- A record (dataframe row): association list from column name to value. -/
abbrev Record := List (String × Val)

/-- A table (dataframe): a column list and a list of records. -/
structure Table where
  cols : List String
  rows : List Record
deriving DecidableEq, Repr

/-- Look up a field of a record by column name. -/
def getV (r : Record) (c : String) : Option Val :=
  match r with
  | [] => none
  | (k, v) :: rs => if k = c then some v else getV rs c

/-- Field value of a record, with missing columns read as the missing marker. -/
def getF (r : Record) (c : String) : Val :=
  (getV r c).getD Val.na

/-- Apply `f` to the value stored under column `c` (pandas `df[c] = df[c].apply f`). -/
def updateF : Record → String → (Val → Val) → Record
  | [], _, _ => []
  | (k, v) :: rs, c, f =>
    if k = c then (k, f v) :: updateF rs c f else (k, v) :: updateF rs c f

/-- Apply `g` to every cell of a record (pandas `df.applymap`). -/
def mapCells (g : Val → Val) (r : Record) : Record :=
  r.map (fun kv => (kv.1, g kv.2))

/-- Python whitespace (the characters `str.isspace` accepts, which is also the
set matched by `\s` in a Python 3 `re` pattern on `str`). -/
def isPySpace (c : Char) : Bool :=
  c ∈ [' ', '\t', '\n', '\x0b', '\x0c', '\r',
       '\x1c', '\x1d', '\x1e', '\x1f', '\x85', '\xa0',
       '\u1680', '\u2000', '\u2001', '\u2002', '\u2003', '\u2004', '\u2005',
       '\u2006', '\u2007', '\u2008', '\u2009', '\u200a', '\u2028', '\u2029',
       '\u202f', '\u205f', '\u3000']

/-- Carriage return or newline (the character class `[\r\n]`). -/
def isNl (c : Char) : Bool := c = '\r' || c = '\n'

/-- Seven-bit (ASCII) character: what `encode('ascii', 'ignore')` keeps. -/
def isAsciiB (c : Char) : Bool := c.toNat < 128

/-- The substitution `text.replace(',', ';')`. -/
def commaSemi (c : Char) : Char := if c = ',' then ';' else c

/-- The final-pass substitution of `','` by a space. -/
def commaSpace (c : Char) : Char := if c = ',' then ' ' else c

/-- Worker for `re.sub(r'P+', ' ', text)`: replace every maximal run of
characters satisfying `p` by a single space.  The flag records whether we are
inside a run that has already emitted its space. -/
def collapseRunsAux (p : Char → Bool) : Bool → List Char → List Char
  | _, [] => []
  | inRun, c :: cs =>
    if p c then
      if inRun then collapseRunsAux p true cs
      else ' ' :: collapseRunsAux p true cs
    else c :: collapseRunsAux p false cs

/-- `re.sub(r'P+', ' ', text)` on a character list. -/
def collapseRuns (p : Char → Bool) (l : List Char) : List Char :=
  collapseRunsAux p false l

/-- Python `str.strip()` on a character list: drop whitespace at both ends. -/
def pyStripL (l : List Char) : List Char :=
  (((l.dropWhile isPySpace).reverse).dropWhile isPySpace).reverse

/-- Python `str.strip()`. -/
def pyStrip (s : String) : String := ⟨pyStripL s.data⟩

/-- Python `str.lower()` restricted to ASCII case mapping. -/
def pyLower (s : String) : String := ⟨s.data.map Char.toLower⟩

/-- Python `str(x)` on a cell value; `astype(str)` renders the `NaN` produced
by `read_csv` as the text `"nan"`. -/
def valToStr : Val → String
  | Val.str s => s
  | Val.int n => toString n
  | Val.na => "nan"

/-- `clean_text_basic` on a character list: the body applied after
`str(text).strip()`, namely `re.sub(r'[\r\n]+', ' ')`, `re.sub(r'\s+', ' ')`,
`replace(',', ';')`, and `encode('ascii', 'ignore')`. -/
def cleanListBody (l : List Char) : List Char :=
  ((collapseRuns isPySpace (collapseRuns isNl l)).map commaSemi).filter isAsciiB

/-- `clean_text_basic` on a character list (including the initial strip). -/
def cleanList (l : List Char) : List Char :=
  cleanListBody (pyStripL l)

/-- `clean_text_basic(text)`: missing becomes the empty string; otherwise
stringify, strip, collapse newline runs then whitespace runs to single
spaces, replace commas by semicolons, and drop non-ASCII characters. -/
def cleanTextBasic : Val → String
  | Val.na => ""
  | v => ⟨cleanList (valToStr v).data⟩

/-- `clean_text_basic` on a string input. -/
def cleanStr (s : String) : String := cleanTextBasic (Val.str s)

/-- Worker for `re.sub(r'\s*;\s*', '; ', text)`.  Mode `none` scans normally
with a (reversed) buffer of pending whitespace; after a match the following
whitespace belongs to the match and is consumed. -/
def semiAux : List Char → Bool → List Char → List Char
  | buf, false, [] => buf.reverse
  | _, true, [] => []
  | buf, false, c :: cs =>
    if isPySpace c then semiAux (c :: buf) false cs
    else if c = ';' then ';' :: ' ' :: semiAux [] true cs
    else buf.reverse ++ c :: semiAux [] false cs
  | _, true, c :: cs =>
    if isPySpace c then semiAux [] true cs
    else if c = ';' then ';' :: ' ' :: semiAux [] true cs
    else c :: semiAux [] false cs

/-- `re.sub(r'\s*;\s*', '; ', text)` on a character list. -/
def semiSub (l : List Char) : List Char := semiAux [] false l

/-- Python `str.title()`: uppercase every letter that starts a word, lowercase
the other letters (ASCII case mapping). -/
def pyTitleAux : Bool → List Char → List Char
  | _, [] => []
  | prevAlpha, c :: cs =>
    if c.isAlpha then
      (if prevAlpha then c.toLower else c.toUpper) :: pyTitleAux true cs
    else c :: pyTitleAux false cs

/-- Python `str.title()` on a string. -/
def pyTitle (s : String) : String := ⟨pyTitleAux false s.data⟩

/-- `clean_genres(text)`: missing becomes `"Unknown"`; otherwise lowercase,
strip, replace commas by semicolons, normalize space around semicolons to
`"; "`, and title-case the result. -/
def cleanGenres : Val → String
  | Val.na => "Unknown"
  | v => pyTitle ⟨semiSub ((pyStripL (pyLower (valToStr v)).data).map commaSemi)⟩

/-- Columns dropped by the schema projection (`drop_cols`). -/
def dropCols : List String := ["description", "rating", "date_added"]

/-- Stage 2: `df.drop(columns=existing_drops)`. -/
def dropColsStage (t : Table) : Table :=
  { cols := t.cols.filter (fun c => !(dropCols.contains c)),
    rows := t.rows.map (fun r => r.filter (fun kv => !(dropCols.contains kv.1))) }

/-- Normalization of the `type` column before the movie filter:
`df["type"].astype(str).str.strip().str.lower()` written back into the column. -/
def typeNorm (r : Record) : Record :=
  updateF r "type" (fun v => Val.str (pyLower (pyStrip (valToStr v))))

/-- The movie-filter predicate `df["type"] == "movie"` on the rewritten column. -/
def movieKeep (r : Record) : Bool :=
  decide (getV r "type" = some (Val.str "movie"))

/-- Stage 3: keep only movies (skipped when there is no `type` column). -/
def movieStage (t : Table) : Table :=
  if "type" ∈ t.cols then
    { t with rows := (t.rows.map typeNorm).filter movieKeep }
  else t

/-- Cell transformation of the blanket strip pass
(`applymap(lambda x: x.strip() if isinstance(x, str) else x)`). -/
def stripCell : Val → Val
  | Val.str s => Val.str (pyStrip s)
  | v => v

/-- Stage 4a: strip every string cell. -/
def stripStage (t : Table) : Table :=
  { t with rows := t.rows.map (mapCells stripCell) }

/-- The sentinel literals replaced by the missing marker. -/
def sentinels : List String := ["\\N", "N/A", "NULL", "None", "?"]

/-- Cell transformation of `df.replace(sentinels, pd.NA)`. -/
def sentinelCell : Val → Val
  | Val.str s => if sentinels.contains s then Val.na else Val.str s
  | v => v

/-- Stage 4b: replace sentinel strings by the missing marker. -/
def sentinelStage (t : Table) : Table :=
  { t with rows := t.rows.map (mapCells sentinelCell) }

/-- The required columns restricted to those present
(`[c for c in ["show_id", "title"] if c in df.columns]`). -/
def criticalCols (t : Table) : List String :=
  ["show_id", "title"].filter (fun c => decide (c ∈ t.cols))

/-- Stage 5a: `df.dropna(subset=critical_cols)`. -/
def dropNaStage (t : Table) : Table :=
  { t with rows :=
      t.rows.filter (fun r => (criticalCols t).all (fun c => !(decide (getF r c = Val.na)))) }

/-- The default-fill mapping (`fill_defaults`). -/
def fillDefaults : List (String × String) :=
  [("director", "Unknown"), ("cast", "Unknown"), ("country", "Unknown"),
   ("listed_in", "Unknown"), ("duration", "Unknown")]

/-- Fill one record: for each mapped column present in the schema, replace a
missing value by the default literal (`df[col].fillna(val)`). -/
def fillRow (t : Table) (r : Record) : Record :=
  fillDefaults.foldl
    (fun r p =>
      if p.1 ∈ t.cols then
        updateF r p.1 (fun v => if v = Val.na then Val.str p.2 else v)
      else r) r

/-- Stage 5b: default-fill the optional columns. -/
def fillStage (t : Table) : Table :=
  { t with rows := t.rows.map (fillRow t) }

/-- `df["cast"] = df["cast"].astype(str)` on one record. -/
def castNorm (r : Record) : Record :=
  updateF r "cast" (fun v => Val.str (valToStr v))

/-- The cast filter predicate `df["cast"].str.lower() != "unknown"`. -/
def castKeep (r : Record) : Bool :=
  match getV r "cast" with
  | some (Val.str s) => decide (pyLower s ≠ "unknown")
  | _ => true

/-- Stage 6: drop records whose `cast` is (case-insensitively) "unknown"
(skipped when there is no `cast` column). -/
def castStage (t : Table) : Table :=
  if "cast" ∈ t.cols then
    { t with rows := (t.rows.map castNorm).filter castKeep }
  else t

/-- The numeric value of a decimal-digit character. -/
def digitVal (c : Char) : Nat := c.toNat - 48

/-- Value of a list of decimal digits. -/
def digitsToNat (l : List Char) : Nat :=
  l.foldl (fun a c => a * 10 + digitVal c) 0

/-- Powers of ten as integers. -/
def pow10 : Nat → Int
  | 0 => 1
  | n + 1 => 10 * pow10 n

/-- An exact decimal number `num / 10 ^ den`: the value of a finite decimal
numeral, kept unnormalized so that every operation below is plain integer
arithmetic.  This idealizes the float64 values `pd.to_numeric` produces:
float64 rounds long decimals and overflows huge ones, so theorems about the
coercion stage are restricted to cells where the idealization is exact
(`FaithfulYearCell`). -/
structure Dec where
  num : Int
  den : Nat
deriving DecidableEq, Repr

/-- Parse the exponent suffix (`e`/`E`, optional sign, digits) and scale. -/
def parseExpD (l : List Char) (d : Dec) : Option Dec :=
  match l with
  | [] => some d
  | e :: r =>
    if e = 'e' ∨ e = 'E' then
      let (neg, r1) := match r with
        | '+' :: r1 => (false, r1)
        | '-' :: r1 => (true, r1)
        | _ => (false, r)
      let ds := r1.takeWhile Char.isDigit
      let rest := r1.dropWhile Char.isDigit
      if ds = [] ∨ rest ≠ [] then none
      else if neg then some ⟨d.num, d.den + digitsToNat ds⟩
      else some ⟨d.num * pow10 (digitsToNat ds), d.den⟩
    else none

/-- Parse an unsigned decimal numeral (`D+ [. D*] | . D+`, optional exponent),
the grammar `pd.to_numeric` accepts for finite decimal text. -/
def parsePosDec (l : List Char) : Option Dec :=
  let ip := l.takeWhile Char.isDigit
  let r1 := l.dropWhile Char.isDigit
  match r1 with
  | '.' :: r2 =>
    let fp := r2.takeWhile Char.isDigit
    let r3 := r2.dropWhile Char.isDigit
    if ip = [] ∧ fp = [] then none
    else parseExpD r3 ⟨((digitsToNat ip * 10 ^ fp.length + digitsToNat fp : Nat) : Int), fp.length⟩
  | _ => if ip = [] then none else parseExpD r1 ⟨((digitsToNat ip : Nat) : Int), 0⟩

/-- Parse a signed decimal numeral. -/
def parseDec (s : String) : Option Dec :=
  match s.data with
  | '+' :: r => parsePosDec r
  | '-' :: r => (parsePosDec r).map (fun d => ⟨-d.num, d.den⟩)
  | l => parsePosDec l

/-- `pd.to_numeric(x, errors="coerce")` on a cell: integers pass through,
text is parsed as a decimal number, failure and missing give `NaN` (`none`).
Exactness caveat: pandas parses into float64 (rounding 17-plus-digit
decimals) and also reads infinity spellings, which `Dec` cannot represent;
the coercion-stage theorems therefore assume `FaithfulYearCell` cells, on
which this function and pandas agree. -/
def toNumD : Val → Option Dec
  | Val.int n => some ⟨n, 0⟩
  | Val.str s => parseDec s
  | Val.na => none

/-- Value comparison of decimals: `a.num / 10^a.den ≤ b.num / 10^b.den`. -/
def decLe (a b : Dec) : Bool :=
  a.num * pow10 b.den ≤ b.num * pow10 a.den

/-- Python `int()` on a decimal: truncation toward zero.  Exactness caveat:
`astype(int)` casts through int64 and wraps or errors beyond its range, while
this truncation is unbounded; the coercion-stage theorems assume
`FaithfulYearCell` cells, whose magnitudes stay far inside int64. -/
def truncD (d : Dec) : Int := Int.tdiv d.num (pow10 d.den)

/-- Truncation toward zero of the mean of two decimals (`int()` of the pandas
even-count median). -/
def truncAvgD (a b : Dec) : Int :=
  Int.tdiv (a.num * pow10 b.den + b.num * pow10 a.den) (2 * pow10 (a.den + b.den))

/-- Insert into a value-sorted list of decimals (ascending). -/
def dInsert (a : Dec) : List Dec → List Dec
  | [] => [a]
  | b :: bs => if decLe a b then a :: b :: bs else b :: dInsert a bs

/-- Sort a list of decimals ascending by value. -/
def dSort : List Dec → List Dec
  | [] => []
  | a :: as => dInsert a (dSort as)

/-- `int()` of the pandas median of a list of decimals: the middle element of
the sorted list (truncated), or the truncated mean of the two middle elements
for an even count. -/
def medianTruncD (l : List Dec) : Int :=
  let s := dSort l
  let n := s.length
  if n % 2 = 1 then truncD (s.getD (n / 2) ⟨0, 0⟩)
  else truncAvgD (s.getD (n / 2 - 1) ⟨0, 0⟩) (s.getD (n / 2) ⟨0, 0⟩)

/-- The release-year values that parse as numbers, in table order
(`df["release_year"].dropna()` after `to_numeric`). -/
def yearValids (t : Table) : List Dec :=
  t.rows.filterMap (fun r => toNumD (getF r "release_year"))

/-- `median_year`: `int()` of the median of the parseable values, or the
fallback constant 2000 when nothing parses. -/
def yearMedianInt (t : Table) : Int :=
  if yearValids t = [] then 2000 else medianTruncD (yearValids t)

/-- Coerce one record's `release_year`: parseable values are truncated to
integers (`astype(int)`), missing/unparseable values take the filled median. -/
def coerceRow (m : Int) (r : Record) : Record :=
  updateF r "release_year"
    (fun v => match toNumD v with
      | some d => Val.int (truncD d)
      | none => Val.int m)

/-- Stage 7: numeric coercion of `release_year` (skipped when absent). -/
def coerceStage (t : Table) : Table :=
  if "release_year" ∈ t.cols then
    { t with rows := t.rows.map (coerceRow (yearMedianInt t)) }
  else t

/-- The free-text columns cleaned by `clean_text_basic`. -/
def textCols : List String := ["title", "director", "cast", "country", "duration"]

/-- Apply `clean_text_basic` to the text columns of one record. -/
def textRow (t : Table) (r : Record) : Record :=
  textCols.foldl
    (fun r c =>
      if c ∈ t.cols then updateF r c (fun v => Val.str (cleanTextBasic v)) else r) r

/-- Stage 8a: basic text normalization. -/
def textStage (t : Table) : Table :=
  { t with rows := t.rows.map (textRow t) }

/-- Stage 8b: genre normalization of `listed_in` (skipped when absent). -/
def genreStage (t : Table) : Table :=
  if "listed_in" ∈ t.cols then
    { t with rows :=
        t.rows.map (fun r => updateF r "listed_in" (fun v => Val.str (cleanGenres v))) }
  else t

/-- The deduplication key (`subset_cols`): whichever of title, director,
release_year are present. -/
def dedupKeyCols (t : Table) : List String :=
  ["title", "director", "release_year"].filter (fun c => decide (c ∈ t.cols))

/-- Keep the first record for each key tuple, dropping later repeats. -/
def dedupGo (ks : List String) (seen : List (List Val)) : List Record → List Record
  | [] => []
  | r :: rs =>
    let k := ks.map (getF r)
    if seen.contains k then dedupGo ks seen rs
    else r :: dedupGo ks (k :: seen) rs

/-- Stage 9: `df.drop_duplicates(subset=subset_cols, keep="first")`.  pandas
`DataFrame.duplicated` with an empty `subset` on a nonempty frame fails while
unpacking the factorized key columns (`ValueError`), so that case is an error;
on an empty frame it returns the frame unchanged. -/
def dedupStage (t : Table) : Option Table :=
  if dedupKeyCols t = [] ∧ t.rows ≠ [] then none
  else some { t with rows := dedupGo (dedupKeyCols t) [] t.rows }

/-- The sort key (`sort_cols`): whichever of release_year, title are present. -/
def sortCols (t : Table) : List String :=
  ["release_year", "title"].filter (fun c => decide (c ∈ t.cols))

/-- Comparison of cell values: numbers below text, missing values last. -/
def cmpVal : Val → Val → Ordering
  | Val.na, Val.na => Ordering.eq
  | Val.na, _ => Ordering.gt
  | _, Val.na => Ordering.lt
  | Val.int m, Val.int n => compare m n
  | Val.str a, Val.str b => compare a b
  | Val.int _, Val.str _ => Ordering.lt
  | Val.str _, Val.int _ => Ordering.gt

/-- Lexicographic comparison of key tuples. -/
def cmpKey : List Val → List Val → Ordering
  | [], [] => Ordering.eq
  | [], _ :: _ => Ordering.lt
  | _ :: _, [] => Ordering.gt
  | a :: as, b :: bs =>
    match cmpVal a b with
    | Ordering.eq => cmpKey as bs
    | o => o

/-- Row comparison for the sort stage. -/
def rowLe (ks : List String) (a b : Record) : Bool :=
  cmpKey (ks.map (getF a)) (ks.map (getF b)) ≠ Ordering.gt

/-- Insertion into a sorted row list. -/
def rowInsert (le : Record → Record → Bool) (a : Record) : List Record → List Record
  | [] => [a]
  | b :: bs => if le a b then a :: b :: bs else b :: rowInsert le a bs

/-- Insertion sort of the row list. -/
def rowSort (le : Record → Record → Bool) : List Record → List Record
  | [] => []
  | a :: as => rowInsert le a (rowSort le as)

/-- Stage 10a: `df.sort_values(by=sort_cols)` (skipped when no key column
exists).  Modelled as an insertion sort on the key tuple; the claims proved
below depend only on the sort permuting rows without changing cells. -/
def sortStage (t : Table) : Table :=
  if sortCols t = [] then t
  else { t with rows := rowSort (rowLe (sortCols t)) t.rows }

/-- The final re-escape on one string: `[\r\n]+` runs to a single space, every
comma to a space, then the closing `strip`. -/
def escStr (s : String) : String :=
  ⟨pyStripL ((collapseRuns isNl s.data).map commaSpace)⟩

/-- The final re-escape on one cell: only string cells are rewritten. -/
def escCell : Val → Val
  | Val.str s => Val.str (escStr s)
  | v => v

/-- Stage 10b: `df.replace({r'[\r\n]+': ' ', ',': ' '}, regex=True)` followed
by the final `applymap` strip. -/
def reEscapeStage (t : Table) : Table :=
  { t with rows := t.rows.map (mapCells escCell) }

/-- The full cleaning pipeline, stages 2 through 10 of `main`. -/
def pipeline (t : Table) : Option Table :=
  (dedupStage (genreStage (textStage (coerceStage (castStage (fillStage
    (dropNaStage (sentinelStage (stripStage (movieStage
      (dropColsStage t))))))))))).map (fun u => reEscapeStage (sortStage u))

/-- Refinement model of the numeric-coercion step as the specification words
it.  Modelled from the spec: "Parse each value as an integer; parse failure
yields missing (not an error). Compute the median over parseable values; if no
value parses, use fallback constant 2000", integer part for fractional
medians.  Used only to compare against the coercion the code performs. -/
def specParseInt (s : String) : Option Int :=
  match s.data with
  | '-' :: r => if r ≠ [] ∧ r.all Char.isDigit then some (-(digitsToNat r : Int)) else none
  | '+' :: r => if r ≠ [] ∧ r.all Char.isDigit then some ((digitsToNat r : Int)) else none
  | l => if l ≠ [] ∧ l.all Char.isDigit then some ((digitsToNat l : Int)) else none

/-- Refinement model, continued: integer reading of a cell per the spec. -/
def specToInt : Val → Option Int
  | Val.int n => some n
  | Val.str s => specParseInt s
  | Val.na => none

/-- Refinement model, continued: ascending insertion into a sorted integer
list. -/
def intInsert (a : Int) : List Int → List Int
  | [] => [a]
  | b :: bs => if a ≤ b then a :: b :: bs else b :: intInsert a bs

/-- Refinement model, continued: insertion sort of an integer list. -/
def intSort : List Int → List Int
  | [] => []
  | a :: as => intInsert a (intSort as)

/-- Refinement model, continued: the median of the valid integers per the
specification, with the integer part taken for an even count. -/
def specMedianInt (l : List Int) : Int :=
  let s := intSort l
  let n := s.length
  if n % 2 = 1 then s.getD (n / 2) 0
  else Int.tdiv (s.getD (n / 2 - 1) 0 + s.getD (n / 2) 0) 2

/-- Refinement model, continued: the coercion stage per the specification,
parsing values as integers only and imputing with the integer part of their
median. -/
def specNumericCoerce (t : Table) : Table :=
  if "release_year" ∈ t.cols then
    let valids := t.rows.filterMap (fun r => specToInt (getF r "release_year"))
    let m : Int := if valids = [] then 2000 else specMedianInt valids
    { t with rows := t.rows.map (fun r =>
        updateF r "release_year"
          (fun v => match specToInt v with
            | some n => Val.int n
            | none => Val.int m)) }
  else t

/-- Strings that float parsing reads as an infinity (case-insensitively,
after trimming): `pd.to_numeric` turns these into an infinite float, which
the exact-decimal model cannot represent. -/
def infSpelling (s : String) : Bool :=
  (pyLower (pyStrip s)) ∈ ["inf", "+inf", "-inf", "infinity", "+infinity", "-infinity"]

/-- Cells on which the exact-decimal model of the numeric coercion provably
coincides with the float64/int64 arithmetic pandas uses: the missing marker;
integers of magnitude at most 2 to the 52 (exactly representable in float64,
and so are the sums of two of them, so the pandas median of such values is
computed exactly; far inside the int64 range, so `astype(int)` neither wraps
nor errors); strings spelling such an integer (`specParseInt` is the
signed-digit-string reader); and digit-free strings other than infinity
spellings, which both pandas and the model treat as missing.  Non-integer
decimals, 17-plus-digit precision, huge magnitudes, and infinities are
excluded: there float64 rounding, int64 overflow, or the non-finite cast
error would make the exact model diverge from the program. -/
def FaithfulYearCell : Val → Bool
  | Val.na => true
  | Val.int n => n.natAbs ≤ 2 ^ 52
  | Val.str s =>
    match specParseInt s with
    | some n => n.natAbs ≤ 2 ^ 52
    | none => s.data.all (fun c => !c.isDigit) && !(infSpelling s)

/-! ### Association-list lemmas -/

theorem getV_updateF_self (r : Record) (c : String) (f : Val → Val) :
    getV (updateF r c f) c = (getV r c).map f := by
  induction r with
  | nil => rfl
  | cons kv rs ih =>
    obtain ⟨k, v⟩ := kv
    by_cases h : k = c
    · simp [updateF, getV, h]
    · simp [updateF, getV, h, ih]

theorem getV_updateF_ne (r : Record) (c d : String) (f : Val → Val) (h : d ≠ c) :
    getV (updateF r c f) d = getV r d := by
  induction r with
  | nil => rfl
  | cons kv rs ih =>
    obtain ⟨k, v⟩ := kv
    by_cases hk : k = c
    · subst hk
      have hcd : k ≠ d := fun hc => h hc.symm
      simp [updateF, getV, hcd, ih]
    · by_cases hd : k = d
      · subst hd
        simp [updateF, getV, hk]
      · simp [updateF, getV, hk, hd, ih]

theorem getV_mapCells (g : Val → Val) (r : Record) (c : String) :
    getV (mapCells g r) c = (getV r c).map g := by
  induction r with
  | nil => rfl
  | cons kv rs ih =>
    obtain ⟨k, v⟩ := kv
    by_cases h : k = c
    · simp [mapCells, getV, h]
    · simp only [mapCells, List.map_cons, getV, if_neg h] at ih ⊢
      exact ih

/-- A cell rewrite that can only produce the missing marker from the missing
marker.  All row operations from the default-fill stage on have this shape. -/
def NaReflecting (g : Val → Val) : Prop := ∀ v, g v = Val.na → v = Val.na

theorem getV_ne_na_updateF (r : Record) (c d : String) (f : Val → Val)
    (hf : NaReflecting f) (h : getV r d ≠ some Val.na) :
    getV (updateF r c f) d ≠ some Val.na := by
  by_cases hdc : d = c
  · subst hdc
    rw [getV_updateF_self]
    intro hcon
    rcases Option.map_eq_some'.mp hcon with ⟨v, hv, hfv⟩
    exact h (by rw [hv, hf v hfv])
  · rw [getV_updateF_ne r c d f hdc]; exact h

theorem getV_ne_na_ite_updateF (r : Record) (c d : String) (f : Val → Val) (G : Prop)
    [Decidable G] (hf : NaReflecting f) (h : getV r d ≠ some Val.na) :
    getV (if G then updateF r c f else r) d ≠ some Val.na := by
  by_cases hg : G
  · rw [if_pos hg]; exact getV_ne_na_updateF r c d f hf h
  · rw [if_neg hg]; exact h

/-! ### Lemmas about run collapsing -/

theorem mem_collapseRunsAux (p : Char → Bool) (b : Bool) (l : List Char) (a : Char)
    (h : a ∈ collapseRunsAux p b l) : a = ' ' ∨ (a ∈ l ∧ p a = false) := by
  induction l generalizing b with
  | nil => simp [collapseRunsAux] at h
  | cons c cs ih =>
    by_cases hc : p c
    · cases b with
      | true =>
        simp only [collapseRunsAux, hc, if_true] at h
        rcases ih true h with h' | ⟨hm, hp⟩
        · exact Or.inl h'
        · exact Or.inr ⟨List.mem_cons_of_mem c hm, hp⟩
      | false =>
        simp only [collapseRunsAux, hc, if_true] at h
        rcases List.mem_cons.mp h with h' | h'
        · exact Or.inl h'
        · rcases ih true h' with h'' | ⟨hm, hp⟩
          · exact Or.inl h''
          · exact Or.inr ⟨List.mem_cons_of_mem c hm, hp⟩
    · simp only [collapseRunsAux, hc, if_false] at h
      rcases List.mem_cons.mp h with h' | h'
      · subst h'; exact Or.inr ⟨List.mem_cons_self a cs, by simpa using hc⟩
      · rcases ih false h' with h'' | ⟨hm, hp⟩
        · exact Or.inl h''
        · exact Or.inr ⟨List.mem_cons_of_mem c hm, hp⟩

theorem collapseRunsAux_eq_self (p : Char → Bool) (b : Bool) (l : List Char)
    (h : ∀ a ∈ l, p a = false) : collapseRunsAux p b l = l := by
  induction l generalizing b with
  | nil => rfl
  | cons c cs ih =>
    have hc : p c = false := h c (List.mem_cons_self c cs)
    simp only [collapseRunsAux, hc, Bool.false_eq_true, if_false]
    exact congrArg (c :: ·) (ih false (fun a ha => h a (List.mem_cons_of_mem c ha)))

theorem head?_collapseRunsAux (p : Char → Bool) (l : List Char) (c : Char)
    (hl : l.head? = some c) (hc : p c = false) :
    (collapseRunsAux p false l).head? = some c := by
  cases l with
  | nil => simp at hl
  | cons d ds =>
    simp only [List.head?_cons, Option.some.injEq] at hl
    subst hl
    simp [collapseRunsAux, hc]

theorem getLast?_cons_ne_nil (a : Char) (l : List Char) (h : l ≠ []) :
    (a :: l).getLast? = l.getLast? := by
  cases l with
  | nil => exact absurd rfl h
  | cons b bs => exact List.getLast?_cons_cons

theorem collapseRunsAux_ne_nil (p : Char → Bool) (b : Bool) (l : List Char) (a : Char)
    (ha : a ∈ l) (hp : p a = false) : collapseRunsAux p b l ≠ [] := by
  induction l generalizing b with
  | nil => simp at ha
  | cons c cs ih =>
    by_cases hc : p c
    · have hacs : a ∈ cs := by
        rcases List.mem_cons.mp ha with h' | h'
        · exact absurd (h' ▸ hc) (by simp [hp])
        · exact h'
      cases b with
      | true =>
        simpa only [collapseRunsAux, hc, if_true] using ih true hacs
      | false =>
        simp [collapseRunsAux, hc]
    · simp [collapseRunsAux, hc]

theorem getLast?_collapseRunsAux (p : Char → Bool) (b : Bool) (l : List Char)
    (h : ∀ a, l.getLast? = some a → p a = false) :
    (collapseRunsAux p b l).getLast? = l.getLast? := by
  induction l generalizing b with
  | nil => rfl
  | cons c cs ih =>
    by_cases hcsne : cs = []
    · subst hcsne
      have hc : p c = false := h c (by simp)
      simp [collapseRunsAux, hc]
    · have hlast : (c :: cs).getLast? = cs.getLast? := getLast?_cons_ne_nil c cs hcsne
      have hcs' : ∀ a, cs.getLast? = some a → p a = false := by
        intro a hagl
        exact h a (by rw [hlast]; exact hagl)
      have hmem : cs.getLast hcsne ∈ cs := List.getLast_mem hcsne
      have hpa : p (cs.getLast hcsne) = false := hcs' _ (List.getLast?_eq_getLast cs hcsne)
      by_cases hc : p c
      · cases b with
        | true =>
          simp only [collapseRunsAux, hc, if_true]
          rw [ih true hcs', hlast]
        | false =>
          simp only [collapseRunsAux, hc, if_true]
          rw [if_neg (by simp), getLast?_cons_ne_nil _ _ (collapseRunsAux_ne_nil p true cs _ hmem hpa),
            ih true hcs', hlast]
      · simp only [collapseRunsAux, hc, Bool.false_eq_true, if_false]
        rw [getLast?_cons_ne_nil _ _ (collapseRunsAux_ne_nil p false cs _ hmem hpa),
          ih false hcs', hlast]

/-! ### Lemmas about stripping -/

theorem head?_dropWhile (p : Char → Bool) (l : List Char) (c : Char)
    (h : (l.dropWhile p).head? = some c) : p c = false := by
  induction l with
  | nil => simp [List.dropWhile] at h
  | cons a as ih =>
    by_cases ha : p a
    · rw [List.dropWhile_cons_of_pos ha] at h
      exact ih h
    · rw [List.dropWhile_cons_of_neg ha] at h
      simp only [List.head?_cons, Option.some.injEq] at h
      subst h
      simpa using ha

theorem getLast?_dropWhile_ne_nil (p : Char → Bool) (l : List Char)
    (h : l.dropWhile p ≠ []) : (l.dropWhile p).getLast? = l.getLast? := by
  induction l with
  | nil => rfl
  | cons a as ih =>
    by_cases ha : p a
    · rw [List.dropWhile_cons_of_pos ha] at h ⊢
      have hasne : as ≠ [] := by
        intro hnil
        rw [hnil] at h
        exact h rfl
      rw [ih h, getLast?_cons_ne_nil a as hasne]
    · rw [List.dropWhile_cons_of_neg ha]

theorem mem_pyStripL (l : List Char) (a : Char) (h : a ∈ pyStripL l) : a ∈ l := by
  unfold pyStripL at h
  rw [List.mem_reverse] at h
  have h1 := (List.dropWhile_sublist isPySpace).mem h
  rw [List.mem_reverse] at h1
  exact (List.dropWhile_sublist isPySpace).mem h1

theorem head?_pyStripL (l : List Char) (c : Char) (h : (pyStripL l).head? = some c) :
    isPySpace c = false := by
  unfold pyStripL at h
  rw [List.head?_reverse] at h
  have hne : ((l.dropWhile isPySpace).reverse).dropWhile isPySpace ≠ [] := by
    intro hnil
    rw [hnil] at h
    simp at h
  rw [getLast?_dropWhile_ne_nil isPySpace _ hne, List.getLast?_reverse] at h
  exact head?_dropWhile isPySpace l c h

theorem getLast?_pyStripL (l : List Char) (c : Char) (h : (pyStripL l).getLast? = some c) :
    isPySpace c = false := by
  unfold pyStripL at h
  rw [List.getLast?_reverse] at h
  exact head?_dropWhile isPySpace _ c h

theorem dropWhile_eq_self_of_head (p : Char → Bool) (l : List Char)
    (h : ∀ c, l.head? = some c → p c = false) : l.dropWhile p = l := by
  cases l with
  | nil => rfl
  | cons a as =>
    have ha : p a = false := h a rfl
    exact List.dropWhile_cons_of_neg (by simp [ha])

theorem pyStripL_eq_self (l : List Char)
    (hh : ∀ c, l.head? = some c → isPySpace c = false)
    (hl : ∀ c, l.getLast? = some c → isPySpace c = false) : pyStripL l = l := by
  unfold pyStripL
  rw [dropWhile_eq_self_of_head isPySpace l hh]
  rw [dropWhile_eq_self_of_head isPySpace l.reverse (by
    intro c hc
    rw [List.head?_reverse] at hc
    exact hl c hc)]
  exact List.reverse_reverse l

/-! ### Generic list helpers -/

theorem map_eq_self_of_fixed {f : Char → Char} {l : List Char}
    (h : ∀ a ∈ l, f a = a) : l.map f = l := by
  induction l with
  | nil => rfl
  | cons a as ih =>
    rw [List.map_cons, h a (List.mem_cons_self a as),
      ih (fun b hb => h b (List.mem_cons_of_mem a hb))]

/-! ### The no-double-space chain invariant -/

/-- Two adjacent characters are never both spaces. -/
def NoTwoSpaces (l : List Char) : Prop :=
  List.Chain' (fun a b => ¬(a = ' ' ∧ b = ' ')) l

theorem chain'_collapseRunsAux (p : Char → Bool) (hsp : p ' ' = true) (l : List Char) :
    ∀ b : Bool, NoTwoSpaces (collapseRunsAux p b l) ∧
      (b = true → ∀ x, (collapseRunsAux p b l).head? = some x → p x = false) := by
  induction l with
  | nil => intro b; exact ⟨List.chain'_nil, fun _ x hx => by simp [collapseRunsAux] at hx⟩
  | cons c cs ih =>
    intro b
    by_cases hc : p c
    · cases b with
      | true =>
        simpa only [collapseRunsAux, hc, if_true] using ih true
      | false =>
        simp only [collapseRunsAux, hc, if_true]
        constructor
        · refine List.chain'_cons'.mpr ⟨?_, (ih true).1⟩
          intro y hy
          intro hcon
          have := (ih true).2 rfl y hy
          rw [hcon.2] at this
          rw [hsp] at this
          exact Bool.true_eq_false.mp this
        · intro hfalse; exact absurd hfalse (by simp)
    · simp only [collapseRunsAux, hc, Bool.false_eq_true, if_false]
      constructor
      · refine List.chain'_cons'.mpr ⟨?_, (ih false).1⟩
        intro y hy hcon
        rw [hcon.1, hsp] at hc
        exact hc rfl
      · intro _ x hx
        simp only [List.head?_cons, Option.some.injEq] at hx
        subst hx
        simpa using hc

theorem collapseRunsAux_eq_self_of_norm (p : Char → Bool) (l : List Char)
    (hun : ∀ a ∈ l, p a = true → a = ' ') (hch : NoTwoSpaces l) :
    ∀ b : Bool, (b = true → ∀ x, l.head? = some x → p x = false) →
      collapseRunsAux p b l = l := by
  induction l with
  | nil => intro b _; rfl
  | cons c cs ih =>
    intro b hb
    by_cases hc : p c
    · have hcsp : c = ' ' := hun c (List.mem_cons_self c cs) hc
      cases b with
      | true => exact absurd hc (by simp [hb rfl c rfl])
      | false =>
        simp only [collapseRunsAux, hc, if_true, Bool.false_eq_true, if_false]
        have hcs : collapseRunsAux p true cs = cs := by
          refine ih (fun a ha hpa => hun a (List.mem_cons_of_mem c ha) hpa)
            (List.chain'_cons'.mp hch).2 true ?_
          intro _ x hx
          have hr := (List.chain'_cons'.mp hch).1 x hx
          by_contra hpx
          have hpx' : p x = true := by
            revert hpx
            cases p x <;> simp
          have hxsp : x = ' ' := hun x (List.mem_cons_of_mem c (List.mem_of_mem_head? hx)) hpx'
          exact hr ⟨hcsp, hxsp⟩
        rw [hcs, hcsp]
    · simp only [collapseRunsAux, hc, Bool.false_eq_true, if_false]
      rw [ih (fun a ha hpa => hun a (List.mem_cons_of_mem c ha) hpa)
        (List.chain'_cons'.mp hch).2 false (by simp)]

/-! ### Normal forms of the basic text clean -/

/-- The shape of `clean_text_basic` output on ASCII input: ASCII, comma-free,
all whitespace is single interior spaces. -/
def NormalizedText (l : List Char) : Prop :=
  (∀ c ∈ l, isAsciiB c = true) ∧
  (∀ c ∈ l, c ≠ ',') ∧
  (∀ c ∈ l, isPySpace c = true → c = ' ') ∧
  (∀ c, l.head? = some c → isPySpace c = false) ∧
  (∀ c, l.getLast? = some c → isPySpace c = false) ∧
  NoTwoSpaces l

theorem nl_imp_pyspace (c : Char) (h : isNl c = true) : isPySpace c = true := by
  have : c = '\r' ∨ c = '\n' := by
    simpa [isNl, Char.ext_iff] using h
  rcases this with h' | h' <;> subst h' <;> decide

theorem commaSemi_space (a : Char) (h : commaSemi a = ' ') : a = ' ' := by
  by_cases ha : a = ','
  · simp [commaSemi, ha] at h
  · simpa [commaSemi, ha] using h

theorem pyspace_commaSemi (a : Char) (h : isPySpace (commaSemi a) = true) :
    isPySpace a = true := by
  by_cases ha : a = ','
  · rw [ha] at h ⊢
    exact absurd h (by decide)
  · simpa [commaSemi, ha] using h

theorem normalized_cleanList_fixed (l : List Char) (hn : NormalizedText l) :
    cleanList l = l := by
  obtain ⟨h1, h2, h3, h4, h5, h6⟩ := hn
  have hstrip : pyStripL l = l := pyStripL_eq_self l h4 h5
  have hnl : collapseRuns isNl l = l := by
    refine collapseRunsAux_eq_self isNl false l ?_
    intro a ha
    by_contra hcon
    have hnl' : isNl a = true := by revert hcon; cases isNl a <;> simp
    have := h3 a ha (nl_imp_pyspace a hnl')
    rw [this] at hnl'
    exact absurd hnl' (by decide)
  have hws : collapseRuns isPySpace l = l :=
    collapseRunsAux_eq_self_of_norm isPySpace l h3 h6 false (by simp)
  have hmap : l.map commaSemi = l := by
    refine map_eq_self_of_fixed ?_
    intro a ha
    simp [commaSemi, h2 a ha]
  have hfil : l.filter isAsciiB = l := List.filter_eq_self.mpr h1
  unfold cleanList cleanListBody
  rw [hstrip, hnl, hws, hmap, hfil]

theorem cleanList_normalized (l : List Char) (hascii : ∀ c ∈ l, isAsciiB c = true) :
    NormalizedText (cleanList l) := by
  set l1 := pyStripL l with hl1
  set l2 := collapseRuns isNl l1 with hl2
  set l3 := collapseRuns isPySpace l2 with hl3
  set l4 := l3.map commaSemi with hl4
  have hmem3 : ∀ c ∈ l3, c = ' ' ∨ (isPySpace c = false ∧ c ∈ l1) := by
    intro c hc
    rcases mem_collapseRunsAux isPySpace false l2 c hc with h | ⟨hm2, hp⟩
    · exact Or.inl h
    · rcases mem_collapseRunsAux isNl false l1 c hm2 with h | ⟨hm1, _⟩
      · exact Or.inl h
      · exact Or.inr ⟨hp, hm1⟩
  have hascii4 : ∀ c ∈ l4, isAsciiB c = true := by
    intro c hc
    rcases List.mem_map.mp hc with ⟨y, hy, hyc⟩
    subst hyc
    by_cases hy' : y = ','
    · rw [hy']; decide
    · rw [show commaSemi y = y from by simp [commaSemi, hy']]
      rcases hmem3 y hy with h | ⟨_, hm1⟩
      · rw [h]; decide
      · exact hascii y (mem_pyStripL l y hm1)
  have hfil : l4.filter isAsciiB = l4 := List.filter_eq_self.mpr hascii4
  have hclean : cleanList l = l4 := by
    unfold cleanList cleanListBody
    rw [← hl1, ← hl2, ← hl3, ← hl4, hfil]
  rw [hclean]
  refine ⟨hascii4, ?_, ?_, ?_, ?_, ?_⟩
  · intro c hc
    rcases List.mem_map.mp hc with ⟨y, hy, hyc⟩
    subst hyc
    by_cases hy' : y = ',' <;> simp [commaSemi, hy']
  · intro c hc hsp
    rcases List.mem_map.mp hc with ⟨y, hy, hyc⟩
    subst hyc
    have hysp : isPySpace y = true := pyspace_commaSemi y hsp
    rcases hmem3 y hy with h | ⟨hp, _⟩
    · rw [h]; rfl
    · rw [hysp] at hp; exact absurd hp (by simp)
  · intro c hc
    rw [List.head?_map] at hc
    cases hh1 : l1.head? with
    | none =>
      have hnil : l1 = [] := List.head?_eq_none_iff.mp hh1
      rw [hl3, hl2, hnil] at hc
      simp [collapseRuns, collapseRunsAux] at hc
    | some y1 =>
      have hy1 : isPySpace y1 = false := head?_pyStripL l y1 (by rw [hl1] at hh1; exact hh1)
      have hy1nl : isNl y1 = false := by
        by_contra hcon
        have : isNl y1 = true := by revert hcon; cases isNl y1 <;> simp
        rw [nl_imp_pyspace y1 this] at hy1
        exact absurd hy1 (by simp)
      have hh2 : l2.head? = some y1 := head?_collapseRunsAux isNl l1 y1 hh1 hy1nl
      have hh3 : l3.head? = some y1 := head?_collapseRunsAux isPySpace l2 y1 hh2 hy1
      rw [hh3] at hc
      simp only [Option.map_some', Option.some.injEq] at hc
      subst hc
      by_contra hcon
      have hsp' : isPySpace (commaSemi y1) = true := by
        revert hcon; cases isPySpace (commaSemi y1) <;> simp
      rw [pyspace_commaSemi y1 hsp'] at hy1
      exact absurd hy1 (by simp)
  · intro c hc
    rw [List.getLast?_map] at hc
    have hlast1 : ∀ a, l1.getLast? = some a → isPySpace a = false := by
      intro a ha
      exact getLast?_pyStripL l a (by rw [hl1] at ha; exact ha)
    have hlast1nl : ∀ a, l1.getLast? = some a → isNl a = false := by
      intro a ha
      by_contra hcon
      have hnla : isNl a = true := by revert hcon; cases isNl a <;> simp
      have h3 := hlast1 a ha
      rw [nl_imp_pyspace a hnla] at h3
      exact absurd h3 (by simp)
    have hg2 : l2.getLast? = l1.getLast? := getLast?_collapseRunsAux isNl false l1 hlast1nl
    have hlast2 : ∀ a, l2.getLast? = some a → isPySpace a = false := by
      intro a ha; rw [hg2] at ha; exact hlast1 a ha
    have hg3 : l3.getLast? = l2.getLast? := getLast?_collapseRunsAux isPySpace false l2 hlast2
    rw [hg3, hg2] at hc
    cases hgl : l1.getLast? with
    | none => rw [hgl] at hc; simp at hc
    | some y =>
      rw [hgl] at hc
      simp only [Option.map_some', Option.some.injEq] at hc
      subst hc
      by_contra hcon
      have hsp' : isPySpace (commaSemi y) = true := by
        revert hcon; cases isPySpace (commaSemi y) <;> simp
      have h3 := hlast1 y hgl
      rw [pyspace_commaSemi y hsp'] at h3
      exact absurd h3 (by simp)
  · have hch3 : NoTwoSpaces l3 := (chain'_collapseRunsAux isPySpace (by decide) l2 false).1
    rw [hl4]
    refine (List.chain'_map commaSemi).mpr ?_
    refine List.Chain'.imp ?_ hch3
    intro a b hab hcon
    exact hab ⟨commaSemi_space a hcon.1, commaSemi_space b hcon.2⟩

/-- The seven-bit printable range (0x20 to 0x7e). -/
def isPrintable7 (c : Char) : Bool := 32 ≤ c.toNat && c.toNat ≤ 126

theorem escStr_chars (s0 : String) (ch : Char) (h : ch ∈ (escStr s0).data) :
    ch ≠ '\r' ∧ ch ≠ '\n' ∧ ch ≠ ',' := by
  have h1 : ch ∈ (collapseRuns isNl s0.data).map commaSpace := by
    have := mem_pyStripL _ ch (by simpa [escStr] using h)
    exact this
  rcases List.mem_map.mp h1 with ⟨y, hy, hyc⟩
  subst hyc
  rcases mem_collapseRunsAux isNl false s0.data y hy with hsp | ⟨_, hnl⟩
  · subst hsp; refine ⟨by decide, by decide, by decide⟩
  · by_cases hyco : y = ','
    · rw [hyco]; refine ⟨by decide, by decide, by decide⟩
    · rw [show commaSpace y = y from by simp [commaSpace, hyco]]
      have hnl' : ¬(y = '\r') ∧ ¬(y = '\n') := by
        constructor <;> intro hcon <;> rw [hcon] at hnl <;> exact absurd hnl (by decide)
      exact ⟨hnl'.1, hnl'.2, hyco⟩

/-- C1.  For every input table, every string field of every record of the
final output (after the sort and re-escape stage) contains no carriage
return, no newline, and no comma. -/
theorem c1_no_bad_chars_in_output (t out : Table) (hp : pipeline t = some out)
    (r : Record) (hr : r ∈ out.rows) (c s : String) (hv : getV r c = some (Val.str s)) :
    ∀ ch ∈ s.data, ch ≠ '\r' ∧ ch ≠ '\n' ∧ ch ≠ ',' := by
  intro ch hch
  unfold pipeline at hp
  rcases Option.map_eq_some'.mp hp with ⟨u, _, hout⟩
  subst hout
  rcases List.mem_map.mp (by simpa [reEscapeStage] using hr) with ⟨r0, _, hr0⟩
  subst hr0
  rw [getV_mapCells] at hv
  cases hgv : getV r0 c with
  | none => rw [hgv] at hv; simp at hv
  | some v =>
    rw [hgv] at hv
    simp only [Option.map_some', Option.some.injEq] at hv
    cases v with
    | str s0 =>
      have hs : s = escStr s0 := by
        have := hv.symm
        simpa [escCell] using this
      rw [hs] at hch
      exact escStr_chars s0 ch hch
    | int n => simp [escCell] at hv
    | na => simp [escCell] at hv

/-- C1 witness: the theorem applied to a one-row table whose title contains a
comma and whose output title is "A;B". -/
theorem c1_witness : 'A' ≠ '\r' ∧ 'A' ≠ '\n' ∧ 'A' ≠ ',' :=
  c1_no_bad_chars_in_output
    ⟨["show_id", "type", "title"],
     [[("show_id", Val.str "1"), ("type", Val.str "Movie"), ("title", Val.str "A,B")]]⟩
    ⟨["show_id", "type", "title"],
     [[("show_id", Val.str "1"), ("type", Val.str "movie"), ("title", Val.str "A;B")]]⟩
    (by decide)
    [("show_id", Val.str "1"), ("type", Val.str "movie"), ("title", Val.str "A;B")]
    (by decide) "title" "A;B" (by decide) 'A' (by decide)

/-- C6 counterexample: the basic text clean keeps the ASCII control character
0x01, which is outside the seven-bit printable range, so the output is not
restricted to printable characters. -/
theorem c6_counterexample : '\x01' ∈ (cleanStr "a\x01b").data ∧ isPrintable7 '\x01' = false := by
  constructor
  · decide
  · decide

/-- C6 amended.  Every character of a `clean_text_basic` output is a seven-bit
(ASCII) character: characters with code point 128 or above are dropped, not
substituted; ASCII control characters other than whitespace survive. -/
theorem c6_output_ascii (v : Val) (c : Char) (h : c ∈ (cleanTextBasic v).data) :
    isAsciiB c = true := by
  cases v with
  | na => simp [cleanTextBasic] at h
  | str s => exact (List.mem_filter.mp h).2
  | int n => exact (List.mem_filter.mp h).2

/-- C6 witness: the theorem applied at a concrete input and output character. -/
theorem c6_witness : isAsciiB 'a' = true :=
  c6_output_ascii (Val.str "aé") 'a' (by decide)

/-- C9 counterexample: the basic text clean is not idempotent.  Dropping the
non-ASCII character of `"é a"` exposes a leading space, which a second
application of the clean removes. -/
theorem c9_counterexample : cleanStr (cleanStr "é a") ≠ cleanStr "é a" := by decide

/-- C9 amended.  The basic text clean is idempotent on inputs made of
seven-bit characters only, and the worked example behaves as stated:
cleaning "  Hello,\r\nWorld!! " gives "Hello; World!!", which is a fixed
point. -/
theorem c9_idempotent_on_ascii :
    (∀ s : String, (∀ c ∈ s.data, isAsciiB c = true) →
      cleanStr (cleanStr s) = cleanStr s) ∧
    cleanStr "  Hello,\r\nWorld!! " = "Hello; World!!" ∧
    cleanStr "Hello; World!!" = "Hello; World!!" := by
  refine ⟨?_, by decide, by decide⟩
  intro s h
  show String.mk (cleanList (cleanList s.data)) = String.mk (cleanList s.data)
  exact congrArg String.mk (normalized_cleanList_fixed _ (cleanList_normalized s.data h))

/-- C9 witness: idempotence at a concrete ASCII input. -/
theorem c9_witness : cleanStr (cleanStr "ab c") = cleanStr "ab c" :=
  c9_idempotent_on_ascii.1 "ab c" (by decide)

/-- C2 counterexample: on a nonempty one-column table containing none of the
three key fields, the deduplication step fails (pandas raises on an empty
`subset`), so it does not return the table unchanged. -/
theorem c2_counterexample :
    dedupStage ⟨["show_id"], [[("show_id", Val.str "1")]]⟩ = none := by decide

/-- C2 amended.  When none of title, director, release_year exist, the
deduplication step is a no-op only on a zero-row table; on a nonempty table
the `drop_duplicates` call with an empty key errors and no table is
produced. -/
theorem c2_empty_key_behavior (t : Table)
    (h1 : "title" ∉ t.cols) (h2 : "director" ∉ t.cols) (h3 : "release_year" ∉ t.cols) :
    (t.rows = [] → dedupStage t = some t) ∧ (t.rows ≠ [] → dedupStage t = none) := by
  obtain ⟨cols, rows⟩ := t
  simp only [Table.mk.injEq] at *
  have hk : dedupKeyCols ⟨cols, rows⟩ = [] := by
    simp [dedupKeyCols, h1, h2, h3]
  constructor
  · intro hrows
    subst hrows
    unfold dedupStage
    rw [if_neg (by simp)]
    rw [hk]
    rfl
  · intro hrows
    unfold dedupStage
    rw [if_pos ⟨hk, hrows⟩]

/-- C2 witness: the no-op half of the theorem at a concrete zero-row table. -/
theorem c2_witness :
    dedupStage ⟨["show_id"], ([] : List Record)⟩ = some ⟨["show_id"], []⟩ :=
  (c2_empty_key_behavior ⟨["show_id"], []⟩ (by decide) (by decide) (by decide)).1 rfl

/-- C10.  A record whose `type` is the missing marker or a sentinel literal is
removed by the category filter: the filter runs before sentinel normalization,
stringifies missing to "nan", and none of these compare equal to "movie". -/
theorem c10_sentinel_type_removed (t : Table) (ht : "type" ∈ t.cols)
    (r : Record) (_hr : r ∈ t.rows)
    (hv : getF r "type" ∈ [Val.na, Val.str "\\N", Val.str "N/A", Val.str "NULL",
                           Val.str "None", Val.str "?"]) :
    movieKeep (typeNorm r) = false ∧ typeNorm r ∉ (movieStage t).rows ∧
    valToStr Val.na = "nan" := by
  have hkeep : movieKeep (typeNorm r) = false := by
    unfold movieKeep typeNorm
    rw [getV_updateF_self]
    cases hgv : getV r "type" with
    | none => simp
    | some v =>
      have hfv : getF r "type" = v := by simp [getF, hgv]
      rw [hfv] at hv
      simp only [List.mem_cons, List.not_mem_nil, or_false] at hv
      rcases hv with h | h | h | h | h | h <;> subst h <;> decide
  refine ⟨hkeep, ?_, rfl⟩
  intro hmem
  rw [movieStage, if_pos ht] at hmem
  have := (List.mem_filter.mp hmem).2
  rw [hkeep] at this
  exact absurd this (by simp)

/-- C10 witness: the theorem applied to a record whose `type` is "N/A". -/
theorem c10_witness :
    movieKeep (typeNorm [("type", Val.str "N/A")]) = false ∧
    typeNorm [("type", Val.str "N/A")] ∉
      (movieStage ⟨["type"], [[("type", Val.str "N/A")]]⟩).rows ∧
    valToStr Val.na = "nan" :=
  c10_sentinel_type_removed ⟨["type"], [[("type", Val.str "N/A")]]⟩ (by decide)
    [("type", Val.str "N/A")] (by decide) (by decide)

/-- C8 counterexample: the category filter does not preserve the stored raw
`type` value of a retained record: "Movie" is overwritten with "movie". -/
theorem c8_counterexample :
    (movieStage ⟨["type"], [[("type", Val.str "Movie")]]⟩).rows =
      [[("type", Val.str "movie")]] ∧
    [(("type" : String), Val.str "movie")] ≠ [(("type" : String), Val.str "Movie")] := by
  constructor
  · decide
  · decide

/-- C8 amended.  The category filter first overwrites `type` with its
trimmed-lowercased stringified value and then compares; every retained record
stores the normalized value "movie" (not the raw one), while all other fields
are unchanged. -/
theorem c8_filter_rewrites_type (t : Table) (ht : "type" ∈ t.cols)
    (r' : Record) (hr' : r' ∈ (movieStage t).rows) :
    getV r' "type" = some (Val.str "movie") ∧
    ∃ r ∈ t.rows, r' = typeNorm r ∧
      (∀ c : String, c ≠ "type" → getV r' c = getV r c) ∧
      getV r' "type" =
        (getV r "type").map (fun v => Val.str (pyLower (pyStrip (valToStr v)))) := by
  rw [movieStage, if_pos ht] at hr'
  obtain ⟨hmem, hkeep⟩ := List.mem_filter.mp hr'
  obtain ⟨r, hr, hrr⟩ := List.mem_map.mp hmem
  subst hrr
  have hmv : getV (typeNorm r) "type" = some (Val.str "movie") := of_decide_eq_true hkeep
  refine ⟨hmv, r, hr, rfl, ?_, ?_⟩
  · intro c hc
    exact getV_updateF_ne r "type" c _ hc
  · exact getV_updateF_self r "type" _

/-- C8 witness: the theorem applied to a retained record with raw type
"Movie". -/
theorem c8_witness :
    getV [(("type" : String), Val.str "movie")] "type" = some (Val.str "movie") ∧
    ∃ r ∈ ({ cols := ["type"], rows := [[("type", Val.str "Movie")]] } : Table).rows,
      [(("type" : String), Val.str "movie")] = typeNorm r ∧
      (∀ c : String, c ≠ "type" →
        getV [(("type" : String), Val.str "movie")] c = getV r c) ∧
      getV [(("type" : String), Val.str "movie")] "type" =
        (getV r "type").map (fun v => Val.str (pyLower (pyStrip (valToStr v)))) :=
  c8_filter_rewrites_type ⟨["type"], [[("type", Val.str "Movie")]]⟩ (by decide)
    [("type", Val.str "movie")] (by decide)

/-! ### The cast fill-then-filter claim -/

theorem getV_ite_updateF_ne (r : Record) (c d : String) (f : Val → Val) (G : Prop)
    [Decidable G] (h : d ≠ c) : getV (if G then updateF r c f else r) d = getV r d := by
  by_cases hg : G
  · rw [if_pos hg]; exact getV_updateF_ne r c d f h
  · rw [if_neg hg]

theorem getV_fillRow_cast (t : Table) (r : Record) (ht : "cast" ∈ t.cols) :
    getV (fillRow t r) "cast" =
      (getV r "cast").map (fun v => if v = Val.na then Val.str "Unknown" else v) := by
  unfold fillRow fillDefaults
  simp only [List.foldl_cons, List.foldl_nil]
  rw [getV_ite_updateF_ne _ _ _ _ _ (by decide)]
  rw [getV_ite_updateF_ne _ _ _ _ _ (by decide)]
  rw [getV_ite_updateF_ne _ _ _ _ _ (by decide)]
  rw [if_pos ht, getV_updateF_self]
  rw [getV_ite_updateF_ne _ _ _ _ _ (by decide)]

/-- C3.  With a `cast` column present, a record whose `cast` is missing at the
default-fill step is filled with "Unknown" and then removed by the
cast-unknown filter; after that filter no surviving record has a `cast`
comparing case-insensitively equal to "unknown". -/
theorem c3_cast_fill_then_filter (t : Table) (ht : "cast" ∈ t.cols)
    (hwf : ∀ r ∈ t.rows, (getV r "cast").isSome) :
    (∀ r ∈ t.rows, getV r "cast" = some Val.na →
      getV (fillRow t r) "cast" = some (Val.str "Unknown") ∧
      castKeep (castNorm (fillRow t r)) = false) ∧
    (∀ r' ∈ (castStage (fillStage t)).rows,
      ∃ s : String, getV r' "cast" = some (Val.str s) ∧ pyLower s ≠ "unknown") := by
  constructor
  · intro r _hr hna
    have hfill : getV (fillRow t r) "cast" = some (Val.str "Unknown") := by
      rw [getV_fillRow_cast t r ht, hna]
      rfl
    refine ⟨hfill, ?_⟩
    unfold castKeep castNorm
    rw [getV_updateF_self, hfill]
    decide
  · intro r' hr'
    have hcols : "cast" ∈ (fillStage t).cols := ht
    rw [castStage, if_pos hcols] at hr'
    obtain ⟨hmem, hkeep⟩ := List.mem_filter.mp hr'
    obtain ⟨q, hq, hqq⟩ := List.mem_map.mp hmem
    obtain ⟨r, hr, hrq⟩ := List.mem_map.mp hq
    subst hqq
    subst hrq
    have hsome : (getV r "cast").isSome := hwf r hr
    cases hgv : getV r "cast" with
    | none => rw [hgv] at hsome; simp at hsome
    | some v =>
      have hq' : getV (fillRow t r) "cast" =
          some (if v = Val.na then Val.str "Unknown" else v) := by
        rw [getV_fillRow_cast t r ht, hgv]
        rfl
      have hc' : getV (castNorm (fillRow t r)) "cast" =
          some (Val.str (valToStr (if v = Val.na then Val.str "Unknown" else v))) := by
        unfold castNorm
        rw [getV_updateF_self, hq']
        rfl
      refine ⟨valToStr (if v = Val.na then Val.str "Unknown" else v), hc', ?_⟩
      unfold castKeep at hkeep
      rw [hc'] at hkeep
      exact of_decide_eq_true hkeep

/-- C3 witness: a record with missing `cast` is filled to "Unknown" and then
fails the cast filter. -/
theorem c3_witness :
    getV (fillRow ⟨["cast"], [[("cast", Val.na)]]⟩ [("cast", Val.na)]) "cast" =
      some (Val.str "Unknown") ∧
    castKeep (castNorm (fillRow ⟨["cast"], [[("cast", Val.na)]]⟩ [("cast", Val.na)])) = false :=
  (c3_cast_fill_then_filter ⟨["cast"], [[("cast", Val.na)]]⟩ (by decide) (by decide)).1
    [("cast", Val.na)] (by decide) (by decide)

/-! ### The numeric coercion claim -/

/-- C4 counterexample: the coercion in the code is not the parse-as-integer
coercion of the claim.  The value "1500.5" fails an integer parse (the claim
would impute the median 2000 of the remaining valid set) but `pd.to_numeric`
parses it as a number and `astype(int)` truncates it to 1500.  At this input
the exact-decimal model is faithful: 1500.5 and the median 1750.25 are exact
in float64 and every magnitude is far inside int64. -/
theorem c4_counterexample :
    (coerceStage ⟨["release_year"],
       [[("release_year", Val.int 2000)], [("release_year", Val.str "1500.5")]]⟩).rows =
      [[("release_year", Val.int 2000)], [("release_year", Val.int 1500)]] ∧
    (specNumericCoerce ⟨["release_year"],
       [[("release_year", Val.int 2000)], [("release_year", Val.str "1500.5")]]⟩).rows =
      [[("release_year", Val.int 2000)], [("release_year", Val.int 2000)]] ∧
    coerceStage ⟨["release_year"],
       [[("release_year", Val.int 2000)], [("release_year", Val.str "1500.5")]]⟩ ≠
    specNumericCoerce ⟨["release_year"],
       [[("release_year", Val.int 2000)], [("release_year", Val.str "1500.5")]]⟩ := by
  refine ⟨by decide, by decide, by decide⟩

/-- C4 amended.  The coercion step parses each value as a decimal number
(not an integer literal), treats parse failure as missing, truncates every
parseable value to its integer part, replaces missing/unparseable values with
the truncated median of the parseable values (2000 when nothing parses), and
leaves `release_year` an integer for every record; the worked example
[2001, "bad", 1999, missing] becomes [2001, 2000, 1999, 2000].  The universal
part is asserted only for tables of `FaithfulYearCell` cells, the regime
(which contains all ordinary release-year data) where the exact-decimal model
provably coincides with the float64/int64 arithmetic pandas uses; outside it
the behavior of the program rests on float64 rounding, int64 overflow, or the
non-finite cast error, none of which this embedding represents. -/
theorem c4_numeric_coercion :
    (∀ t : Table, "release_year" ∈ t.cols →
      (∀ r ∈ t.rows, (getV r "release_year").isSome) →
      (∀ r ∈ t.rows, FaithfulYearCell (getF r "release_year") = true) →
      (∀ r' ∈ (coerceStage t).rows, ∃ n : Int, getV r' "release_year" = some (Val.int n)) ∧
      ((∀ r ∈ t.rows, toNumD (getF r "release_year") = none) →
        ∀ r' ∈ (coerceStage t).rows, getV r' "release_year" = some (Val.int 2000)) ∧
      (∀ r ∈ t.rows, ∀ d : Dec, toNumD (getF r "release_year") = some d →
        getV (coerceRow (yearMedianInt t) r) "release_year" = some (Val.int (truncD d)))) ∧
    coerceStage ⟨["release_year"],
      [[("release_year", Val.int 2001)], [("release_year", Val.str "bad")],
       [("release_year", Val.int 1999)], [("release_year", Val.na)]]⟩ =
    ⟨["release_year"],
      [[("release_year", Val.int 2001)], [("release_year", Val.int 2000)],
       [("release_year", Val.int 1999)], [("release_year", Val.int 2000)]]⟩ := by
  constructor
  · intro t ht hwf _hsafe
    refine ⟨?_, ?_, ?_⟩
    · intro r' hr'
      rw [coerceStage, if_pos ht] at hr'
      obtain ⟨r, hr, hrr⟩ := List.mem_map.mp hr'
      subst hrr
      unfold coerceRow
      rw [getV_updateF_self]
      cases hgv : getV r "release_year" with
      | none =>
        have := hwf r hr
        rw [hgv] at this
        simp at this
      | some v =>
        cases htn : toNumD v with
        | none => exact ⟨yearMedianInt t, by simp [htn]⟩
        | some d => exact ⟨truncD d, by simp [htn]⟩
    · intro hall r' hr'
      rw [coerceStage, if_pos ht] at hr'
      obtain ⟨r, hr, hrr⟩ := List.mem_map.mp hr'
      subst hrr
      have hm : yearMedianInt t = 2000 := by
        have hnil : yearValids t = [] := by
          unfold yearValids
          exact List.filterMap_eq_nil_iff.mpr (fun r hr => hall r hr)
        unfold yearMedianInt
        rw [if_pos hnil]
      unfold coerceRow
      rw [getV_updateF_self]
      cases hgv : getV r "release_year" with
      | none =>
        have := hwf r hr
        rw [hgv] at this
        simp at this
      | some v =>
        have hfv : getF r "release_year" = v := by simp [getF, hgv]
        have hnone : toNumD v = none := by rw [← hfv]; exact hall r hr
        simp [hnone, hm]
    · intro r hr d hd
      unfold coerceRow
      rw [getV_updateF_self]
      cases hgv : getV r "release_year" with
      | none =>
        have := hwf r hr
        rw [hgv] at this
        simp at this
      | some v =>
        have hfv : getF r "release_year" = v := by simp [getF, hgv]
        rw [hfv] at hd
        simp [hd]
  · decide

/-- C4 witness: the integer-ness invariant at a concrete output record. -/
theorem c4_witness :
    ∃ n : Int, getV [(("release_year" : String), Val.int 2001)] "release_year" =
      some (Val.int n) :=
  (c4_numeric_coercion.1 ⟨["release_year"],
      [[("release_year", Val.int 2001)], [("release_year", Val.str "bad")]]⟩
    (by decide) (by decide) (by decide)).1 [("release_year", Val.int 2001)] (by decide)

/-! ### Survival of the required fields -/

/-- The two required fields are not stored as the missing marker. -/
def KeyFieldsPresent (r : Record) : Prop :=
  getV r "show_id" ≠ some Val.na ∧ getV r "title" ≠ some Val.na

theorem kfp_updateF (r : Record) (c : String) (f : Val → Val) (hf : NaReflecting f)
    (h : KeyFieldsPresent r) : KeyFieldsPresent (updateF r c f) :=
  ⟨getV_ne_na_updateF r c _ f hf h.1, getV_ne_na_updateF r c _ f hf h.2⟩

theorem kfp_ite_updateF (r : Record) (c : String) (f : Val → Val) (G : Prop) [Decidable G]
    (hf : NaReflecting f) (h : KeyFieldsPresent r) :
    KeyFieldsPresent (if G then updateF r c f else r) := by
  by_cases hg : G
  · rw [if_pos hg]; exact kfp_updateF r c f hf h
  · rw [if_neg hg]; exact h

theorem kfp_foldl {α : Type} (F : Record → α → Record)
    (hF : ∀ r a, KeyFieldsPresent r → KeyFieldsPresent (F r a)) :
    ∀ (ps : List α) (r : Record), KeyFieldsPresent r → KeyFieldsPresent (ps.foldl F r) := by
  intro ps
  induction ps with
  | nil => intro r h; exact h
  | cons a as ih => intro r h; exact ih (F r a) (hF r a h)

theorem fill_na_reflecting (dflt : String) :
    NaReflecting (fun v => if v = Val.na then Val.str dflt else v) := by
  intro v hv
  by_cases hvna : v = Val.na
  · exact hvna
  · simp only [if_neg hvna] at hv; exact hv

theorem str_na_reflecting (g : Val → String) : NaReflecting (fun v => Val.str (g v)) := by
  intro v hv
  simp at hv

theorem esc_na_reflecting : NaReflecting escCell := by
  intro v hv
  cases v with
  | na => rfl
  | str s => simp [escCell] at hv
  | int n => simp [escCell] at hv

theorem kfp_mapCells (g : Val → Val) (hg : NaReflecting g) (r : Record)
    (h : KeyFieldsPresent r) : KeyFieldsPresent (mapCells g r) := by
  constructor <;>
    · rw [getV_mapCells]
      intro hcon
      rcases Option.map_eq_some'.mp hcon with ⟨v, hv, hgv⟩
      first
      | exact h.1 (by rw [hv, hg v hgv])
      | exact h.2 (by rw [hv, hg v hgv])

theorem getF_ne_na (r : Record) (c : String) (h : getF r c ≠ Val.na) :
    getV r c ≠ some Val.na := by
  intro hcon
  apply h
  rw [getF, hcon]
  rfl

theorem kfp_dropNaStage (u : Table) (hs : "show_id" ∈ u.cols) (ht : "title" ∈ u.cols) :
    ∀ r ∈ (dropNaStage u).rows, KeyFieldsPresent r := by
  intro r hr
  obtain ⟨_, hall⟩ := List.mem_filter.mp hr
  have hcc : criticalCols u = ["show_id", "title"] := by
    simp [criticalCols, hs, ht]
  rw [hcc] at hall
  simp only [List.all_cons, List.all_nil, Bool.and_true, Bool.and_eq_true,
    Bool.not_eq_true', decide_eq_false_iff_not] at hall
  exact ⟨getF_ne_na r _ hall.1, getF_ne_na r _ hall.2⟩

theorem kfp_fillStage (u : Table) (h : ∀ r ∈ u.rows, KeyFieldsPresent r) :
    ∀ r ∈ (fillStage u).rows, KeyFieldsPresent r := by
  intro r hr
  obtain ⟨r0, hr0, hrr⟩ := List.mem_map.mp hr
  subst hrr
  unfold fillRow
  refine kfp_foldl _ ?_ fillDefaults r0 (h r0 hr0)
  intro r' a h'
  exact kfp_ite_updateF r' a.1 _ _ (fill_na_reflecting a.2) h'

theorem kfp_castStage (u : Table) (h : ∀ r ∈ u.rows, KeyFieldsPresent r) :
    ∀ r ∈ (castStage u).rows, KeyFieldsPresent r := by
  intro r hr
  unfold castStage at hr
  by_cases hc : "cast" ∈ u.cols
  · rw [if_pos hc] at hr
    obtain ⟨hmem, _⟩ := List.mem_filter.mp hr
    obtain ⟨r0, hr0, hrr⟩ := List.mem_map.mp hmem
    subst hrr
    exact kfp_updateF r0 _ _ (str_na_reflecting valToStr) (h r0 hr0)
  · rw [if_neg hc] at hr
    exact h r hr

theorem int_na_reflecting (g : Val → Int) : NaReflecting (fun v => Val.int (g v)) := by
  intro v hv
  simp at hv

theorem kfp_coerceStage (u : Table) (h : ∀ r ∈ u.rows, KeyFieldsPresent r) :
    ∀ r ∈ (coerceStage u).rows, KeyFieldsPresent r := by
  intro r hr
  unfold coerceStage at hr
  by_cases hc : "release_year" ∈ u.cols
  · rw [if_pos hc] at hr
    obtain ⟨r0, hr0, hrr⟩ := List.mem_map.mp hr
    subst hrr
    unfold coerceRow
    refine kfp_updateF r0 _ _ ?_ (h r0 hr0)
    intro v hv
    cases htn : toNumD v <;> simp [htn] at hv
  · rw [if_neg hc] at hr
    exact h r hr

theorem kfp_textStage (u : Table) (h : ∀ r ∈ u.rows, KeyFieldsPresent r) :
    ∀ r ∈ (textStage u).rows, KeyFieldsPresent r := by
  intro r hr
  obtain ⟨r0, hr0, hrr⟩ := List.mem_map.mp hr
  subst hrr
  unfold textRow
  refine kfp_foldl _ ?_ textCols r0 (h r0 hr0)
  intro r' c h'
  exact kfp_ite_updateF r' c _ _ (str_na_reflecting cleanTextBasic) h'

theorem kfp_genreStage (u : Table) (h : ∀ r ∈ u.rows, KeyFieldsPresent r) :
    ∀ r ∈ (genreStage u).rows, KeyFieldsPresent r := by
  intro r hr
  unfold genreStage at hr
  by_cases hc : "listed_in" ∈ u.cols
  · rw [if_pos hc] at hr
    obtain ⟨r0, hr0, hrr⟩ := List.mem_map.mp hr
    subst hrr
    exact kfp_updateF r0 _ _ (str_na_reflecting cleanGenres) (h r0 hr0)
  · rw [if_neg hc] at hr
    exact h r hr

theorem mem_dedupGo (ks : List String) (rows : List Record) (r : Record) :
    ∀ seen, r ∈ dedupGo ks seen rows → r ∈ rows := by
  induction rows with
  | nil => intro seen h; simp [dedupGo] at h
  | cons a as ih =>
    intro seen h
    unfold dedupGo at h
    by_cases hc : seen.contains (ks.map (getF a))
    · rw [if_pos hc] at h
      exact List.mem_cons_of_mem a (ih seen h)
    · rw [if_neg hc] at h
      rcases List.mem_cons.mp h with h' | h'
      · exact h' ▸ List.mem_cons_self a as
      · exact List.mem_cons_of_mem a (ih _ h')

theorem kfp_dedupStage (u w : Table) (hu : dedupStage u = some w)
    (h : ∀ r ∈ u.rows, KeyFieldsPresent r) : ∀ r ∈ w.rows, KeyFieldsPresent r := by
  intro r hr
  unfold dedupStage at hu
  by_cases hcond : dedupKeyCols u = [] ∧ u.rows ≠ []
  · rw [if_pos hcond] at hu; exact absurd hu (by simp)
  · rw [if_neg hcond] at hu
    have hw : w.rows = dedupGo (dedupKeyCols u) [] u.rows := by
      have := (Option.some.injEq _ _).mp hu
      rw [← this]
    rw [hw] at hr
    exact h r (mem_dedupGo _ _ r [] hr)

theorem mem_rowInsert (le : Record → Record → Bool) (a r : Record) :
    ∀ l, r ∈ rowInsert le a l → r = a ∨ r ∈ l := by
  intro l
  induction l with
  | nil => intro h; simpa [rowInsert] using h
  | cons b bs ih =>
    intro h
    unfold rowInsert at h
    by_cases hle : le a b
    · rw [if_pos hle] at h
      rcases List.mem_cons.mp h with h' | h'
      · exact Or.inl h'
      · exact Or.inr h'
    · rw [if_neg hle] at h
      rcases List.mem_cons.mp h with h' | h'
      · exact Or.inr (h' ▸ List.mem_cons_self b bs)
      · rcases ih h' with h'' | h''
        · exact Or.inl h''
        · exact Or.inr (List.mem_cons_of_mem b h'')

theorem mem_rowSort (le : Record → Record → Bool) (r : Record) :
    ∀ l, r ∈ rowSort le l → r ∈ l := by
  intro l
  induction l with
  | nil => intro h; simp [rowSort] at h
  | cons a as ih =>
    intro h
    unfold rowSort at h
    rcases mem_rowInsert le a r _ h with h' | h'
    · exact h' ▸ List.mem_cons_self a as
    · exact List.mem_cons_of_mem a (ih h')

theorem kfp_sortStage (u : Table) (h : ∀ r ∈ u.rows, KeyFieldsPresent r) :
    ∀ r ∈ (sortStage u).rows, KeyFieldsPresent r := by
  intro r hr
  unfold sortStage at hr
  by_cases hc : sortCols u = []
  · rw [if_pos hc] at hr; exact h r hr
  · rw [if_neg hc] at hr
    exact h r (mem_rowSort _ r _ hr)

theorem kfp_reEscapeStage (u : Table) (h : ∀ r ∈ u.rows, KeyFieldsPresent r) :
    ∀ r ∈ (reEscapeStage u).rows, KeyFieldsPresent r := by
  intro r hr
  obtain ⟨r0, hr0, hrr⟩ := List.mem_map.mp hr
  subst hrr
  exact kfp_mapCells escCell esc_na_reflecting r0 (h r0 hr0)

theorem movieStage_cols (u : Table) : (movieStage u).cols = u.cols := by
  unfold movieStage
  split <;> rfl

/-- C5 counterexample: a whitespace-only title survives the required-field
enforcement (it is not the missing marker) and is trimmed to the empty
string, so the final output contains a record whose title is empty. -/
theorem c5_counterexample :
    pipeline ⟨["show_id", "type", "title"],
      [[("show_id", Val.str "1"), ("type", Val.str "Movie"), ("title", Val.str " ")]]⟩ =
    some ⟨["show_id", "type", "title"],
      [[("show_id", Val.str "1"), ("type", Val.str "movie"), ("title", Val.str "")]]⟩ := by
  decide

/-- C5 amended.  When the `show_id` and `title` columns exist, every record of
the final output stores neither field as the missing marker (they are,
however, not necessarily non-empty strings). -/
theorem c5_id_title_not_missing (t out : Table)
    (hs : "show_id" ∈ t.cols) (ht : "title" ∈ t.cols)
    (hp : pipeline t = some out) :
    ∀ r ∈ out.rows, getV r "show_id" ≠ some Val.na ∧ getV r "title" ≠ some Val.na := by
  unfold pipeline at hp
  rcases Option.map_eq_some'.mp hp with ⟨u, hu, hout⟩
  subst hout
  have hs4 : "show_id" ∈
      (sentinelStage (stripStage (movieStage (dropColsStage t)))).cols := by
    show "show_id" ∈ (movieStage (dropColsStage t)).cols
    rw [movieStage_cols]
    exact List.mem_filter.mpr ⟨hs, by decide⟩
  have ht4 : "title" ∈
      (sentinelStage (stripStage (movieStage (dropColsStage t)))).cols := by
    show "title" ∈ (movieStage (dropColsStage t)).cols
    rw [movieStage_cols]
    exact List.mem_filter.mpr ⟨ht, by decide⟩
  intro r hr
  exact kfp_reEscapeStage _
    (kfp_sortStage _
      (kfp_dedupStage _ _ hu
        (kfp_genreStage _
          (kfp_textStage _
            (kfp_coerceStage _
              (kfp_castStage _
                (kfp_fillStage _
                  (kfp_dropNaStage _ hs4 ht4)))))))) r hr

/-- C5 witness: the theorem applied to a concrete one-row table. -/
theorem c5_witness :
    getV [("show_id", Val.str "1"), ("type", Val.str "movie"), ("title", Val.str "A")]
      "show_id" ≠ some Val.na ∧
    getV [("show_id", Val.str "1"), ("type", Val.str "movie"), ("title", Val.str "A")]
      "title" ≠ some Val.na :=
  c5_id_title_not_missing
    ⟨["show_id", "type", "title"],
     [[("show_id", Val.str "1"), ("type", Val.str "Movie"), ("title", Val.str "A")]]⟩
    ⟨["show_id", "type", "title"],
     [[("show_id", Val.str "1"), ("type", Val.str "movie"), ("title", Val.str "A")]]⟩
    (by decide) (by decide) (by decide)
    [("show_id", Val.str "1"), ("type", Val.str "movie"), ("title", Val.str "A")]
    (by decide)
